import Mathlib

/-!
Shallow embedding of the caption-embedding ingestion pipeline of
src/data/generate_custom_dataset.py.

Text is modelled as lists of code points (List Nat).  The character
classes model the ASCII fragment of the Python str and re semantics the
source relies on.  The components imported from the external module
langchain_openai_tools (credential manager, embedding database, text
loader) are not part of src/; they are modelled from the specification
and their doc comments say so explicitly.
-/

namespace StackGAN

/-- Whitespace characters recognised by Python str.strip and by the
regex class backslash-s, ASCII fragment: space, tab, newline, vertical
tab, form feed and carriage return. -/
def isPySpace (c : Nat) : Bool :=
  c == 32 || c == 9 || c == 10 || c == 11 || c == 12 || c == 13

/-- Word characters of the regex class backslash-w, ASCII fragment:
digits, upper and lower case letters, and underscore. -/
def isWordChar (c : Nat) : Bool :=
  (decide (48 ≤ c) && decide (c ≤ 57)) || (decide (65 ≤ c) && decide (c ≤ 90)) ||
    (decide (97 ≤ c) && decide (c ≤ 122)) || c == 95

/-- ASCII lower-casing of a single code point, as done by str.lower on
the ASCII fragment. -/
def lowerChar (c : Nat) : Nat :=
  if 65 ≤ c ∧ c ≤ 90 then c + 32 else c

/-- Code points of a Lean string literal; used to write concrete inputs
readably. -/
def strToCodes (s : String) : List Nat := s.toList.map Char.toNat

/-- Code point of the apostrophe character. -/
def apos : Nat := 39

/-- Code points of a contraction word: the two pieces around an
apostrophe. -/
def contr (a b : String) : List Nat := strToCodes a ++ apos :: strToCodes b

/-- The STOP_WORDS list of src/data/generate_custom_dataset.py
(lines 106 to 120).  Only membership in the list is ever used by the
source, so the contraction words are listed after the plain words. -/
def STOP_WORDS : List (List Nat) :=
  (["i", "me", "my", "myself", "we", "our", "ours", "ourselves", "you",
    "your", "yours", "yourself", "yourselves", "he", "him", "his",
    "himself", "she", "her", "hers", "herself", "it", "its", "itself",
    "they", "them", "their", "theirs", "themselves", "what", "which",
    "who", "whom", "this", "that", "these", "those", "am", "is", "are",
    "was", "were", "be", "been", "being", "have", "has", "had", "having",
    "do", "does", "did", "doing", "a", "an", "the", "and", "but", "if",
    "or", "because", "as", "until", "while", "of", "at", "by", "for",
    "with", "about", "against", "between", "into", "through", "during",
    "before", "after", "above", "below", "to", "from", "up", "down",
    "in", "out", "on", "off", "over", "under", "again", "further",
    "then", "once", "here", "there", "when", "where", "why", "how",
    "all", "any", "both", "each", "few", "more", "most", "other",
    "some", "such", "no", "nor", "not", "only", "own", "same", "so",
    "than", "too", "very", "s", "t", "can", "will", "just", "don",
    "should", "now", "d", "ll", "m", "o", "re", "ve", "y", "ain",
    "aren", "couldn", "didn", "doesn", "hadn", "hasn", "haven", "isn",
    "ma", "mightn", "mustn", "needn", "shan", "shouldn", "wasn",
    "weren", "won", "wouldn"].map strToCodes) ++
  [contr "you" "re", contr "you" "ve", contr "you" "ll", contr "you" "d",
   contr "she" "s", contr "it" "s", contr "that" "ll", contr "don" "t",
   contr "should" "ve", contr "aren" "t", contr "couldn" "t",
   contr "didn" "t", contr "doesn" "t", contr "hadn" "t",
   contr "hasn" "t", contr "haven" "t", contr "isn" "t",
   contr "mightn" "t", contr "mustn" "t", contr "needn" "t",
   contr "shan" "t", contr "shouldn" "t", contr "wasn" "t",
   contr "weren" "t", contr "won" "t", contr "wouldn" "t"]

/-- Leading-whitespace removal, the left half of Python str.strip. -/
def dropLeading (l : List Nat) : List Nat := l.dropWhile isPySpace

/-- Trailing-whitespace removal, the right half of Python str.strip. -/
def dropTrailing : List Nat → List Nat
  | [] => []
  | c :: rest =>
    if (dropTrailing rest).isEmpty && isPySpace c then []
    else c :: dropTrailing rest

/-- Python str.strip: remove whitespace from both ends. -/
def pyStrip (l : List Nat) : List Nat := dropTrailing (dropLeading l)

/-- Python split on the single space character, keeping empty pieces,
as in the source expression text.split with a one-space separator. -/
def splitSp : List Nat → List (List Nat)
  | [] => [[]]
  | c :: rest =>
    match splitSp rest with
    | [] => [[]]
    | t :: ts => if c == 32 then [] :: t :: ts else (c :: t) :: ts

/-- Python str.join with a single space separator. -/
def joinSp : List (List Nat) → List Nat
  | [] => []
  | [t] => t
  | t :: ts => t ++ 32 :: joinSp ts

/-- One character of the first regex substitution of the source: every
character that is not a word character, whitespace or an apostrophe is
replaced by a space. -/
def subPunct (c : Nat) : Nat :=
  if isWordChar c || isPySpace c || c == apos then c else 32

/-- Collapsing of whitespace runs, the second regex substitution of the
source: every maximal run of whitespace characters becomes one space.
The boolean records whether the previous character was whitespace. -/
def collapseAux : Bool → List Nat → List Nat
  | _, [] => []
  | prev, c :: rest =>
    if isPySpace c then
      if prev then collapseAux true rest else 32 :: collapseAux true rest
    else c :: collapseAux false rest

/-- Whitespace-run collapsing applied to a whole string. -/
def collapseWS (l : List Nat) : List Nat := collapseAux false l

/-- The static method DatasetWrap.clean of the source (lines 177 to
185): strip and lower-case, split on single spaces and drop stop-word
tokens, replace non word, non whitespace, non apostrophe characters by
spaces, collapse whitespace runs, strip again. -/
def clean (l : List Nat) : List Nat :=
  let t1 := (pyStrip l).map lowerChar
  let t2 := joinSp ((splitSp t1).filter (fun t => !(STOP_WORDS.contains t)))
  let t3 := t2.map subPunct
  pyStrip (collapseWS t3)

example : clean (strToCodes "A sharp knife in a bag.") = strToCodes "sharp knife bag" := by decide

example : clean (strToCodes "a.") = strToCodes "a" := by decide

example : clean (strToCodes "a") = [] := by decide

/-- Modelled from the spec: a credential of the external module
langchain_openai_tools, which is not under src/.  Specification
section 3: an opaque key plus an identifying label (the nickname of
the source); both are modelled as numbers. -/
structure Credential where
  key : Nat
  label : Nat
  deriving DecidableEq

/-- Modelled from the spec: the state of the OpenAICredentialManager
of the external module langchain_openai_tools (specification section
4.2): the configured credentials in order, the labels currently marked
exhausted, and the round-robin cursor of the cyclic iterator. -/
structure CredRing where
  creds : List Credential
  exhausted : List Nat
  cursor : Nat
  deriving DecidableEq

/-- Modelled from the spec: the membership test is_limit_exhausted of
the credential manager (specification section 4.2, isExhausted). -/
def CredRing.is_limit_exhausted (r : CredRing) (lab : Nat) : Bool :=
  r.exhausted.contains lab

/-- Modelled from the spec: set_limit_exhausted of the credential
manager (specification section 4.2, setExhausted); idempotent. -/
def CredRing.set_limit_exhausted (r : CredRing) (lab : Nat) : CredRing :=
  if r.exhausted.contains lab then r
  else CredRing.mk r.creds (lab :: r.exhausted) r.cursor

/-- Modelled from the spec: the search performed by one call to next on
the cyclic credential iterator: probe at most fuel positions starting
at pos, skipping exhausted labels, and return the credential found
together with the next cursor position. -/
def nextFrom (creds : List Credential) (exh : List Nat) :
    Nat → Nat → Option (Credential × Nat)
  | _, 0 => none
  | pos, fuel + 1 =>
    match creds[pos % creds.length]? with
    | none => none
    | some c =>
      if exh.contains c.label then nextFrom creds exh (pos + 1) fuel
      else some (c, pos + 1)

/-- Modelled from the spec: next on the credential ring (specification
section 4.2): the next non-exhausted credential in round-robin order
starting at the cursor, or none when every credential is exhausted
(the defined fatal outcome required by the specification). -/
def CredRing.next (r : CredRing) : Option (Credential × CredRing) :=
  match nextFrom r.creds r.exhausted r.cursor r.creds.length with
  | none => none
  | some (c, p) => some (c, CredRing.mk r.creds r.exhausted p)

/-- Modelled from the spec: the state of the OpenAITextEmbeddingDB of
the external module langchain_openai_tools (specification section
4.3): durable committed records plus a staged write buffer.  Embedding
vectors are opaque to the pipeline and are modelled as numbers. -/
structure EmbDB where
  committed : List (List Nat × Nat)
  staged : List (List Nat × Nat)
  deriving DecidableEq

/-- Modelled from the spec: the membership check is_available of the
embedding database (specification section 4.3, isAvailable): only
committed records are visible. -/
def EmbDB.is_available (db : EmbDB) (t : List Nat) : Bool :=
  (db.committed.map Prod.fst).contains t

/-- Modelled from the spec: append of the embedding database
(specification section 4.3): stage a record in the write buffer. -/
def EmbDB.append (db : EmbDB) (t : List Nat) (v : Nat) : EmbDB :=
  EmbDB.mk db.committed (db.staged ++ [(t, v)])

/-- Modelled from the spec: commit of the embedding database
(specification section 4.3): durably persist all staged records. -/
def EmbDB.commit (db : EmbDB) : EmbDB :=
  EmbDB.mk (db.committed ++ db.staged) []

/-- Outcome of one external embed request (specification section 4.4):
a vector, the distinguished rate-limit signal, or any other error. -/
inductive EmbedResult where
  | ok (v : Nat)
  | rateLimited
  | otherFailure
  deriving DecidableEq

/-- Outcome of processing one caption in the inner while loop of
generate_openai_embeddings. -/
inductive AttemptResult where
  | processed (db : EmbDB) (ring : CredRing) (cur : Credential)
  | allExhausted (db : EmbDB)
  | failed (db : EmbDB)
  deriving DecidableEq

/-- Outcome of the whole ingestion loop. -/
inductive RunResult where
  | finished (db : EmbDB) (ring : CredRing) (cur : Credential)
  | fatalExhaustion (db : EmbDB)
  | fatalFailure (db : EmbDB)
  deriving DecidableEq

/-- Number of non-exhausted credentials whose label differs from the
given one; the termination measure of the retry loop. -/
def availNotLabel (r : CredRing) (lab : Nat) : Nat :=
  r.creds.countP (fun c => !(r.exhausted.contains c.label) && !(c.label == lab))

theorem countP_le_countP {α : Type} {p q : α → Bool} :
    ∀ (l : List α), (∀ a ∈ l, p a = true → q a = true) →
      l.countP p ≤ l.countP q := by
  intro l
  induction l with
  | nil => intro _; simp
  | cons b t ih =>
    intro h
    rw [List.countP_cons, List.countP_cons]
    have ht := ih (fun a ha => h a (List.mem_cons_of_mem b ha))
    by_cases hb : p b = true
    · rw [hb, h b (List.mem_cons_self b t) hb]
      omega
    · rw [Bool.not_eq_true] at hb
      rw [hb]
      simp only [Bool.false_eq_true, if_false]
      split <;> omega

theorem countP_lt_countP {α : Type} {p q : α → Bool} :
    ∀ (l : List α), (∀ a ∈ l, p a = true → q a = true) →
      ∀ a ∈ l, q a = true → p a = false → l.countP p < l.countP q := by
  intro l
  induction l with
  | nil => intro _ a ha; exact absurd ha (List.not_mem_nil a)
  | cons b t ih =>
    intro h a ha hqa hpa
    rw [List.countP_cons, List.countP_cons]
    have h0 : (if (false = true) then 1 else 0) = 0 := by simp
    have h1 : (if (true = true) then 1 else 0) = 1 := by simp
    rcases List.mem_cons.mp ha with rfl | hat
    · rw [hpa, hqa, h0, h1]
      have := countP_le_countP t (fun x hx => h x (List.mem_cons_of_mem a hx))
      omega
    · have hlt := ih (fun x hx => h x (List.mem_cons_of_mem b hx)) a hat hqa hpa
      by_cases hb : p b = true
      · rw [hb, h b (List.mem_cons_self b t) hb, h1]; omega
      · rw [Bool.not_eq_true] at hb
        rw [hb, h0]
        split <;> omega

theorem set_limit_exhausted_creds (r : CredRing) (lab : Nat) :
    (r.set_limit_exhausted lab).creds = r.creds := by
  unfold CredRing.set_limit_exhausted
  split <;> rfl

theorem set_limit_exhausted_contains (r : CredRing) (lab x : Nat) :
    (r.set_limit_exhausted lab).exhausted.contains x =
      (r.exhausted.contains x || x == lab) := by
  unfold CredRing.set_limit_exhausted
  split
  · next hc =>
    cases hx : (x == lab) with
    | false => simp
    | true =>
      have hxl : x = lab := eq_of_beq hx
      subst hxl
      rw [hc]
      simp
  · rw [List.contains_cons]
    exact Bool.or_comm _ _

theorem nextFrom_spec (creds : List Credential) (exh : List Nat) :
    ∀ (fuel pos : Nat) (c : Credential) (p : Nat),
      nextFrom creds exh pos fuel = some (c, p) →
        c ∈ creds ∧ exh.contains c.label = false := by
  intro fuel
  induction fuel with
  | zero => intro pos c p h; simp [nextFrom] at h
  | succ n ih =>
    intro pos c p h
    rw [nextFrom] at h
    split at h
    · exact absurd h (by simp)
    · next c0 hg =>
      split at h
      · exact ih (pos + 1) c p h
      · next hex =>
        simp only [Option.some.injEq, Prod.mk.injEq] at h
        rcases h with ⟨rfl, rfl⟩
        refine ⟨List.getElem?_mem hg, ?_⟩
        simpa using hex

theorem next_spec (r : CredRing) (c : Credential) (r2 : CredRing)
    (h : r.next = some (c, r2)) :
    r2.creds = r.creds ∧ r2.exhausted = r.exhausted ∧
      c ∈ r.creds ∧ r.exhausted.contains c.label = false := by
  unfold CredRing.next at h
  cases hnf : nextFrom r.creds r.exhausted r.cursor r.creds.length with
  | none => rw [hnf] at h; simp at h
  | some cp =>
    rw [hnf] at h
    obtain ⟨c0, p0⟩ := cp
    simp only [Option.some.injEq, Prod.mk.injEq] at h
    rcases h with ⟨rfl, rfl⟩
    have := nextFrom_spec r.creds r.exhausted r.creds.length r.cursor c0 p0 hnf
    exact ⟨rfl, rfl, this.1, this.2⟩

theorem attempt_measure (ring : CredRing) (lab : Nat) (c2 : Credential)
    (ring2 : CredRing)
    (h : (ring.set_limit_exhausted lab).next = some (c2, ring2)) :
    availNotLabel ring2 c2.label < availNotLabel ring lab := by
  obtain ⟨hcreds, hexh, hmem, hcont⟩ :=
    next_spec (ring.set_limit_exhausted lab) c2 ring2 h
  rw [set_limit_exhausted_contains] at hcont
  have hc1 : ring.exhausted.contains c2.label = false := by
    cases hx : ring.exhausted.contains c2.label
    · rfl
    · rw [hx] at hcont; simp at hcont
  have hc2 : (c2.label == lab) = false := by
    cases hx : (c2.label == lab)
    · rfl
    · rw [hx] at hcont; simp at hcont
  rw [set_limit_exhausted_creds] at hcreds hmem
  unfold availNotLabel
  rw [hcreds, hexh]
  refine countP_lt_countP ring.creds ?_ c2 hmem ?_ ?_
  · intro a _ hpa
    rw [set_limit_exhausted_contains] at hpa
    simp only [Bool.and_eq_true, Bool.not_eq_true', Bool.or_eq_false_iff] at hpa
    rw [hpa.1.1, hpa.1.2]
    rfl
  · rw [hc1, hc2]
    rfl
  · rw [set_limit_exhausted_contains]
    simp

/-- The inner while True loop of generate_openai_embeddings (source
lines 333 to 347) for one caption: if the current credential is marked
exhausted a RateLimitError is raised locally; a rate-limit outcome
marks the current credential exhausted and rotates to the next one,
retrying the same caption; a successful embed call appends and commits
the record; any other error propagates out of the loop. -/
def attempt (embed : List Nat → Credential → EmbedResult) (db : EmbDB)
    (ring : CredRing) (cur : Credential) (caption : List Nat) :
    AttemptResult :=
  if ring.is_limit_exhausted cur.label then
    match h : (ring.set_limit_exhausted cur.label).next with
    | none => AttemptResult.allExhausted db
    | some (c2, ring2) => attempt embed db ring2 c2 caption
  else
    match embed caption cur with
    | EmbedResult.ok v =>
        AttemptResult.processed ((db.append caption v).commit) ring cur
    | EmbedResult.rateLimited =>
      match h : (ring.set_limit_exhausted cur.label).next with
      | none => AttemptResult.allExhausted db
      | some (c2, ring2) => attempt embed db ring2 c2 caption
    | EmbedResult.otherFailure => AttemptResult.failed db
termination_by availNotLabel ring cur.label
decreasing_by
  all_goals exact attempt_measure ring cur.label c2 ring2 h

/-- The for loop of generate_openai_embeddings over the pending
captions (source line 332): each caption is processed by the inner
while loop before the next one is taken. -/
def runLoop (embed : List Nat → Credential → EmbedResult) :
    EmbDB → CredRing → Credential → List (List Nat) → RunResult
  | db, ring, cur, [] => RunResult.finished db ring cur
  | db, ring, cur, caption :: rest =>
    match attempt embed db ring cur caption with
    | AttemptResult.processed db2 ring2 cur2 => runLoop embed db2 ring2 cur2 rest
    | AttemptResult.allExhausted db2 => RunResult.fatalExhaustion db2
    | AttemptResult.failed db2 => RunResult.fatalFailure db2

/-- First-occurrence deduplication with an accumulator of already seen
values; the semantics of pandas unique used by caption_loader. -/
def uniqueFirstAux (seen : List (List Nat)) : List (List Nat) → List (List Nat)
  | [] => []
  | x :: xs =>
    if seen.contains x then uniqueFirstAux seen xs
    else x :: uniqueFirstAux (x :: seen) xs

/-- First-occurrence deduplication, keeping the original order. -/
def uniqueFirst (l : List (List Nat)) : List (List Nat) :=
  uniqueFirstAux [] l

/-- The caption_loader of generate_openai_embeddings (source lines 315
to 323): normalize every raw caption with clean, deduplicate keeping
first occurrences, and keep only the texts not already available in
the embedding database. -/
def caption_loader (raw : List (List Nat)) (db : EmbDB) : List (List Nat) :=
  (uniqueFirst (raw.map clean)).filter (fun t => !(db.is_available t))

/-- The ingestion pipeline of generate_openai_embeddings (source lines
300 to 347): obtain the first credential from the ring, then run the
loop over the pending captions computed by caption_loader; if no
credential is available at startup the run is fatal immediately. -/
def generate_openai_embeddings (embed : List Nat → Credential → EmbedResult)
    (db : EmbDB) (ring : CredRing) (raw : List (List Nat)) : RunResult :=
  match ring.next with
  | none => RunResult.fatalExhaustion db
  | some (cur, ring2) => runLoop embed db ring2 cur (caption_loader raw db)

/-- Accumulator form of whitespace tokenization: the current word is
collected in reverse; any whitespace character ends it and empty
pieces are discarded. -/
def wordsAux : List Nat → List Nat → List (List Nat)
  | cur, [] => if cur.isEmpty then [] else [cur.reverse]
  | cur, c :: rest =>
    if isPySpace c then
      if cur.isEmpty then wordsAux [] rest
      else cur.reverse :: wordsAux [] rest
    else wordsAux (c :: cur) rest

/-- Tokenization on whitespace as the words of the specification
pipeline: split at every whitespace run and discard empty pieces. -/
def tokenizeWS (l : List Nat) : List (List Nat) := wordsAux [] l

/-- The normalizer pipeline exactly as the specification words it
(section 4.1): trim, lowercase, tokenize on whitespace, drop stop-word
tokens, strip all characters except word characters, whitespace and
apostrophes, collapse repeated whitespace to one space, trim again. -/
def cleanSpecWords (l : List Nat) : List Nat :=
  let t1 := (pyStrip l).map lowerChar
  let toks := (tokenizeWS t1).filter (fun t => !(STOP_WORDS.contains t))
  pyStrip (collapseWS ((joinSp toks).map subPunct))

/-- The specification pipeline with the tokenization step amended to
split on single space characters keeping empty pieces, which is what
the source code does. -/
def cleanSpaceSplit (l : List Nat) : List Nat :=
  let t1 := (pyStrip l).map lowerChar
  let toks := (splitSp t1).filter (fun t => !(STOP_WORDS.contains t))
  pyStrip (collapseWS ((joinSp toks).map subPunct))

/-- Concrete credential fixtures for witnesses. -/
def credA : Credential := Credential.mk 1001 1

/-- Second concrete credential fixture. -/
def credB : Credential := Credential.mk 1002 2

/-- Third concrete credential fixture. -/
def credC : Credential := Credential.mk 1003 3

/-- A fresh three-credential ring fixture. -/
def ringABC : CredRing := CredRing.mk [credA, credB, credC] [] 0

/-- The same ring with the first credential already exhausted and the
cursor past it, as after one rotation. -/
def ringBC : CredRing := CredRing.mk [credA, credB, credC] [1] 1

/-- A ring fixture with every credential exhausted. -/
def ringNone : CredRing := CredRing.mk [credA, credB, credC] [3, 2, 1] 0

/-- An empty embedding database fixture. -/
def dbEmpty : EmbDB := EmbDB.mk [] []

/-- An embed oracle fixture that always succeeds with vector 7. -/
def embedOk : List Nat → Credential → EmbedResult := fun _ _ => EmbedResult.ok 7

/-- An embed oracle fixture that is rate limited on the label 1
credential and succeeds with vector 9 elsewhere. -/
def embedRL : List Nat → Credential → EmbedResult :=
  fun _ c => if c.label == 1 then EmbedResult.rateLimited else EmbedResult.ok 9

/-- An embed oracle fixture that always fails with a non rate-limit
error. -/
def embedBad : List Nat → Credential → EmbedResult := fun _ _ => EmbedResult.otherFailure

/-- The ring fixture reached from ringABC after the first credential is
marked exhausted and the iterator has rotated past it. -/
def ringAfterA : CredRing := CredRing.mk [credA, credB, credC] [1] 2

/-- A database fixture that already holds one committed caption. -/
def dbSharp : EmbDB := EmbDB.mk [(strToCodes "sharp knife bag", 7)] []

/-- Characters that can occur in the output of clean: space,
apostrophe, digit, lower-case letter or underscore. -/
def okChar (c : Nat) : Bool :=
  c == 32 || c == apos || (decide (48 ≤ c) && decide (c ≤ 57)) ||
    (decide (97 ≤ c) && decide (c ≤ 122)) || c == 95

/-- No two adjacent whitespace characters anywhere in the string. -/
def noAdjSp : List Nat → Bool
  | a :: b :: rest => (!(isPySpace a && isPySpace b)) && noAdjSp (b :: rest)
  | _ => true

/-- The first character, when present, is not whitespace. -/
def headNotSp : List Nat → Bool
  | [] => true
  | c :: _ => !(isPySpace c)

theorem attempt_rotate_some (embed : List Nat → Credential → EmbedResult)
    (db : EmbDB) (ring : CredRing) (cur : Credential) (caption : List Nat)
    (c2 : Credential) (ring2 : CredRing)
    (h : ring.is_limit_exhausted cur.label = true ∨
      embed caption cur = EmbedResult.rateLimited)
    (hn : (ring.set_limit_exhausted cur.label).next = some (c2, ring2)) :
    attempt embed db ring cur caption = attempt embed db ring2 c2 caption := by
  have step : ∀ hexh : ring.is_limit_exhausted cur.label = true,
      attempt embed db ring cur caption = attempt embed db ring2 c2 caption := by
    intro hexh
    rw [attempt, if_pos hexh]
    split
    · next heq => rw [hn] at heq; exact absurd heq (by simp)
    · next c3 ring3 heq =>
      rw [hn] at heq
      simp only [Option.some.injEq, Prod.mk.injEq] at heq
      rcases heq with ⟨rfl, rfl⟩
      rfl
  rcases h with h | h
  · exact step h
  · by_cases hexh : ring.is_limit_exhausted cur.label = true
    · exact step hexh
    · rw [attempt, if_neg hexh, h]
      split
      · next v heq => exact absurd heq (by simp)
      · next heq =>
        split
        · next heq2 => rw [hn] at heq2; exact absurd heq2 (by simp)
        · next c3 ring3 heq2 =>
          rw [hn] at heq2
          simp only [Option.some.injEq, Prod.mk.injEq] at heq2
          rcases heq2 with ⟨rfl, rfl⟩
          rfl
      · next heq => exact absurd heq (by simp)

theorem attempt_rotate_none (embed : List Nat → Credential → EmbedResult)
    (db : EmbDB) (ring : CredRing) (cur : Credential) (caption : List Nat)
    (h : ring.is_limit_exhausted cur.label = true ∨
      embed caption cur = EmbedResult.rateLimited)
    (hn : (ring.set_limit_exhausted cur.label).next = none) :
    attempt embed db ring cur caption = AttemptResult.allExhausted db := by
  have step : ∀ hexh : ring.is_limit_exhausted cur.label = true,
      attempt embed db ring cur caption = AttemptResult.allExhausted db := by
    intro hexh
    rw [attempt, if_pos hexh]
    split
    · rfl
    · next c3 ring3 heq => rw [hn] at heq; exact absurd heq (by simp)
  rcases h with h | h
  · exact step h
  · by_cases hexh : ring.is_limit_exhausted cur.label = true
    · exact step hexh
    · rw [attempt, if_neg hexh, h]
      split
      · next v heq => exact absurd heq (by simp)
      · next heq =>
        split
        · rfl
        · next c3 ring3 heq2 => rw [hn] at heq2; exact absurd heq2 (by simp)
      · next heq => exact absurd heq (by simp)

theorem attempt_ok (embed : List Nat → Credential → EmbedResult)
    (db : EmbDB) (ring : CredRing) (cur : Credential) (caption : List Nat)
    (v : Nat) (h1 : ring.is_limit_exhausted cur.label = false)
    (h2 : embed caption cur = EmbedResult.ok v) :
    attempt embed db ring cur caption =
      AttemptResult.processed ((db.append caption v).commit) ring cur := by
  rw [attempt, if_neg (by simp [h1]), h2]

theorem attempt_failed (embed : List Nat → Credential → EmbedResult)
    (db : EmbDB) (ring : CredRing) (cur : Credential) (caption : List Nat)
    (h1 : ring.is_limit_exhausted cur.label = false)
    (h2 : embed caption cur = EmbedResult.otherFailure) :
    attempt embed db ring cur caption = AttemptResult.failed db := by
  rw [attempt, if_neg (by simp [h1]), h2]

theorem attempt_processed_inv (embed : List Nat → Credential → EmbedResult) :
    ∀ (n : Nat) (db : EmbDB) (ring : CredRing) (cur : Credential)
      (caption : List Nat) (db2 : EmbDB) (ring2 : CredRing) (cur2 : Credential),
      availNotLabel ring cur.label = n →
      attempt embed db ring cur caption = AttemptResult.processed db2 ring2 cur2 →
      ∃ v, embed caption cur2 = EmbedResult.ok v ∧
        db2 = (db.append caption v).commit ∧
        ring2.is_limit_exhausted cur2.label = false := by
  intro n
  induction n using Nat.strong_induction_on with
  | _ n ih =>
    intro db ring cur caption db2 ring2 cur2 hn hatt
    by_cases hexh : ring.is_limit_exhausted cur.label = true
    · cases hnext : (ring.set_limit_exhausted cur.label).next with
      | none =>
        rw [attempt_rotate_none embed db ring cur caption (Or.inl hexh) hnext] at hatt
        simp at hatt
      | some p =>
        obtain ⟨c3, ring3⟩ := p
        rw [attempt_rotate_some embed db ring cur caption c3 ring3
          (Or.inl hexh) hnext] at hatt
        have hlt := attempt_measure ring cur.label c3 ring3 hnext
        rw [hn] at hlt
        exact ih (availNotLabel ring3 c3.label) hlt db ring3 c3 caption
          db2 ring2 cur2 rfl hatt
    · rw [Bool.not_eq_true] at hexh
      cases hemb : embed caption cur with
      | ok v =>
        rw [attempt_ok embed db ring cur caption v hexh hemb] at hatt
        simp only [AttemptResult.processed.injEq] at hatt
        rcases hatt with ⟨rfl, rfl, rfl⟩
        exact ⟨v, hemb, rfl, hexh⟩
      | rateLimited =>
        cases hnext : (ring.set_limit_exhausted cur.label).next with
        | none =>
          rw [attempt_rotate_none embed db ring cur caption (Or.inr hemb) hnext] at hatt
          simp at hatt
        | some p =>
          obtain ⟨c3, ring3⟩ := p
          rw [attempt_rotate_some embed db ring cur caption c3 ring3
            (Or.inr hemb) hnext] at hatt
          have hlt := attempt_measure ring cur.label c3 ring3 hnext
          rw [hn] at hlt
          exact ih (availNotLabel ring3 c3.label) hlt db ring3 c3 caption
            db2 ring2 cur2 rfl hatt
      | otherFailure =>
        rw [attempt_failed embed db ring cur caption hexh hemb] at hatt
        simp at hatt

theorem nextFrom_none (creds : List Credential) (exh : List Nat)
    (h : ∀ c ∈ creds, exh.contains c.label = true) :
    ∀ (fuel pos : Nat), nextFrom creds exh pos fuel = none := by
  intro fuel
  induction fuel with
  | zero => intro pos; rfl
  | succ n ih =>
    intro pos
    rw [nextFrom]
    split
    · rfl
    · next c0 hg =>
      rw [if_pos (h c0 (List.getElem?_mem hg))]
      exact ih (pos + 1)

theorem next_none (r : CredRing)
    (h : ∀ c ∈ r.creds, r.exhausted.contains c.label = true) :
    r.next = none := by
  unfold CredRing.next
  rw [nextFrom_none r.creds r.exhausted h r.creds.length r.cursor]

theorem set_limit_exhausted_already (r : CredRing) (lab : Nat)
    (h : r.exhausted.contains lab = true) : r.set_limit_exhausted lab = r := by
  unfold CredRing.set_limit_exhausted
  rw [if_pos h]

/-- C2.  If an embed request for a caption returns the rate-limit
signal, or the current credential is already marked exhausted, the
inner loop marks the current credential exhausted, rotates to the
credential produced by next, and retries the very same caption with
the same database state; and whatever caption processing returns as
processed was obtained from a successful embed call for that caption,
appended and committed. -/
theorem rate_limit_rotates_and_retries_same_caption
    (embed : List Nat → Credential → EmbedResult) (db : EmbDB)
    (ring : CredRing) (cur : Credential) (caption : List Nat)
    (c2 : Credential) (ring2 : CredRing)
    (h : ring.is_limit_exhausted cur.label = true ∨
      embed caption cur = EmbedResult.rateLimited)
    (hn : (ring.set_limit_exhausted cur.label).next = some (c2, ring2)) :
    attempt embed db ring cur caption = attempt embed db ring2 c2 caption ∧
    ∀ (db2 : EmbDB) (ring3 : CredRing) (cur3 : Credential),
      attempt embed db ring cur caption = AttemptResult.processed db2 ring3 cur3 →
      ∃ v, embed caption cur3 = EmbedResult.ok v ∧
        db2 = (db.append caption v).commit := by
  refine ⟨attempt_rotate_some embed db ring cur caption c2 ring2 h hn, ?_⟩
  intro db2 ring3 cur3 hatt
  obtain ⟨v, h1, h2, _⟩ := attempt_processed_inv embed
    (availNotLabel ring cur.label) db ring cur caption db2 ring3 cur3 rfl hatt
  exact ⟨v, h1, h2⟩

/-- Witness for C2 at a concrete state: with a fresh three-credential
ring and an oracle that rate-limits the first credential, processing a
caption equals retrying it on the second credential with the first one
marked exhausted. -/
theorem rate_limit_rotates_and_retries_same_caption_witness :
    attempt embedRL dbEmpty ringABC credA (strToCodes "knife") =
      attempt embedRL dbEmpty ringAfterA credB (strToCodes "knife") ∧
    ∀ (db2 : EmbDB) (ring3 : CredRing) (cur3 : Credential),
      attempt embedRL dbEmpty ringABC credA (strToCodes "knife") =
        AttemptResult.processed db2 ring3 cur3 →
      ∃ v, embedRL (strToCodes "knife") cur3 = EmbedResult.ok v ∧
        db2 = (dbEmpty.append (strToCodes "knife") v).commit :=
  rate_limit_rotates_and_retries_same_caption embedRL dbEmpty ringABC credA
    (strToCodes "knife") credB ringAfterA (Or.inr rfl) (by decide)

/-- C4.  When every credential of the ring is marked exhausted,
requesting the next credential yields the distinguished none outcome,
one caption attempt yields the allExhausted result, and the ingestion
loop stops with the fatal exhaustion outcome instead of retrying;
attempt and runLoop are total functions, so no unbounded retry or
block is possible in this state. -/
theorem all_exhausted_fatal (embed : List Nat → Credential → EmbedResult)
    (db : EmbDB) (ring : CredRing) (cur : Credential) (caption : List Nat)
    (rest : List (List Nat))
    (h1 : ∀ c ∈ ring.creds, ring.exhausted.contains c.label = true)
    (h2 : ring.exhausted.contains cur.label = true) :
    ring.next = none ∧
    attempt embed db ring cur caption = AttemptResult.allExhausted db ∧
    runLoop embed db ring cur (caption :: rest) = RunResult.fatalExhaustion db := by
  have hnone : ring.next = none := next_none ring h1
  have hset : ring.set_limit_exhausted cur.label = ring :=
    set_limit_exhausted_already ring cur.label h2
  have hatt : attempt embed db ring cur caption = AttemptResult.allExhausted db := by
    refine attempt_rotate_none embed db ring cur caption (Or.inl h2) ?_
    rw [hset, hnone]
  refine ⟨hnone, hatt, ?_⟩
  rw [runLoop, hatt]

/-- Witness for C4 at a concrete state: a three-credential ring with
every label exhausted. -/
theorem all_exhausted_fatal_witness :
    ringNone.next = none ∧
    attempt embedOk dbEmpty ringNone credA (strToCodes "knife") =
      AttemptResult.allExhausted dbEmpty ∧
    runLoop embedOk dbEmpty ringNone credA (strToCodes "knife" :: []) =
      RunResult.fatalExhaustion dbEmpty :=
  all_exhausted_fatal embedOk dbEmpty ringNone credA (strToCodes "knife") []
    (by decide) (by decide)

/-- C8.  On a successful embed call the loop appends the record and
commits it before moving to the next pending caption, and both the
ring state and the current credential are unchanged: no rotation
happens on success. -/
theorem success_commits_and_keeps_credential
    (embed : List Nat → Credential → EmbedResult) (db : EmbDB)
    (ring : CredRing) (cur : Credential) (caption : List Nat) (v : Nat)
    (rest : List (List Nat))
    (h1 : ring.is_limit_exhausted cur.label = false)
    (h2 : embed caption cur = EmbedResult.ok v) :
    attempt embed db ring cur caption =
      AttemptResult.processed ((db.append caption v).commit) ring cur ∧
    runLoop embed db ring cur (caption :: rest) =
      runLoop embed ((db.append caption v).commit) ring cur rest := by
  have ha := attempt_ok embed db ring cur caption v h1 h2
  refine ⟨ha, ?_⟩
  rw [runLoop, ha]

/-- Witness for C8 at a concrete state. -/
theorem success_commits_and_keeps_credential_witness :
    attempt embedOk dbEmpty ringABC credA (strToCodes "knife") =
      AttemptResult.processed ((dbEmpty.append (strToCodes "knife") 7).commit)
        ringABC credA ∧
    runLoop embedOk dbEmpty ringABC credA (strToCodes "knife" :: []) =
      runLoop embedOk ((dbEmpty.append (strToCodes "knife") 7).commit)
        ringABC credA [] :=
  success_commits_and_keeps_credential embedOk dbEmpty ringABC credA
    (strToCodes "knife") 7 [] (by decide) rfl

/-- C9.  An embed error other than the rate-limit signal is surfaced
at once: the attempt yields the failed outcome without touching the
database, and the ingestion loop aborts with a fatal failure carrying
the database unchanged, so every record committed before the abort is
still there; no retry and no credential rotation happens. -/
theorem other_error_aborts (embed : List Nat → Credential → EmbedResult)
    (db : EmbDB) (ring : CredRing) (cur : Credential) (caption : List Nat)
    (rest : List (List Nat))
    (h1 : ring.is_limit_exhausted cur.label = false)
    (h2 : embed caption cur = EmbedResult.otherFailure) :
    attempt embed db ring cur caption = AttemptResult.failed db ∧
    runLoop embed db ring cur (caption :: rest) = RunResult.fatalFailure db := by
  have ha := attempt_failed embed db ring cur caption h1 h2
  refine ⟨ha, ?_⟩
  rw [runLoop, ha]

/-- Witness for C9 at a concrete state. -/
theorem other_error_aborts_witness :
    attempt embedBad dbEmpty ringABC credA (strToCodes "knife") =
      AttemptResult.failed dbEmpty ∧
    runLoop embedBad dbEmpty ringABC credA (strToCodes "knife" :: []) =
      RunResult.fatalFailure dbEmpty :=
  other_error_aborts embedBad dbEmpty ringABC credA (strToCodes "knife") []
    (by decide) rfl

theorem contains_append {α : Type} [BEq α] :
    ∀ (l1 l2 : List α) (a : α),
      (l1 ++ l2).contains a = (l1.contains a || l2.contains a) := by
  intro l1
  induction l1 with
  | nil => intro l2 a; simp
  | cons b t ih =>
    intro l2 a
    rw [List.cons_append, List.contains_cons, List.contains_cons, ih,
      Bool.or_assoc]

theorem uniqueFirstAux_mem (x : List Nat) :
    ∀ (l seen : List (List Nat)),
      x ∈ uniqueFirstAux seen l ↔ (x ∈ l ∧ ¬ x ∈ seen) := by
  intro l
  induction l with
  | nil => intro seen; simp [uniqueFirstAux]
  | cons a t ih =>
    intro seen
    by_cases hc : seen.contains a = true
    · rw [uniqueFirstAux, if_pos hc, ih seen]
      have ha : a ∈ seen := List.elem_iff.mp hc
      constructor
      · rintro ⟨hx, hn⟩
        exact ⟨List.mem_cons_of_mem a hx, hn⟩
      · rintro ⟨hmem, hn⟩
        rcases List.mem_cons.mp hmem with rfl | hx
        · exact absurd ha hn
        · exact ⟨hx, hn⟩
    · rw [uniqueFirstAux, if_neg hc]
      have ha : ¬ a ∈ seen := fun hm => hc (by simpa using hm)
      constructor
      · intro hmem
        rcases List.mem_cons.mp hmem with rfl | hmem2
        · exact ⟨List.mem_cons_self x t, ha⟩
        · rw [ih (a :: seen)] at hmem2
          rcases hmem2 with ⟨hx, hn2⟩
          exact ⟨List.mem_cons_of_mem a hx,
            fun hs => hn2 (List.mem_cons_of_mem a hs)⟩
      · rintro ⟨hmem, hn⟩
        rcases List.mem_cons.mp hmem with rfl | hx
        · exact List.mem_cons_self x (uniqueFirstAux (x :: seen) t)
        · by_cases hxa : x = a
          · subst hxa
            exact List.mem_cons_self x (uniqueFirstAux (x :: seen) t)
          · refine List.mem_cons_of_mem a ?_
            rw [ih (a :: seen)]
            exact ⟨hx, fun hs => (List.mem_cons.mp hs).elim hxa hn⟩

theorem uniqueFirstAux_nodup :
    ∀ (l seen : List (List Nat)), (uniqueFirstAux seen l).Nodup := by
  intro l
  induction l with
  | nil => intro seen; simp [uniqueFirstAux]
  | cons a t ih =>
    intro seen
    by_cases hc : seen.contains a = true
    · rw [uniqueFirstAux, if_pos hc]
      exact ih seen
    · rw [uniqueFirstAux, if_neg hc]
      refine List.nodup_cons.mpr ⟨?_, ih (a :: seen)⟩
      intro hmem
      rw [uniqueFirstAux_mem] at hmem
      exact hmem.2 (List.mem_cons_self a seen)

theorem uniqueFirstAux_sublist :
    ∀ (l seen : List (List Nat)), List.Sublist (uniqueFirstAux seen l) l := by
  intro l
  induction l with
  | nil => intro seen; simp [uniqueFirstAux]
  | cons a t ih =>
    intro seen
    by_cases hc : seen.contains a = true
    · rw [uniqueFirstAux, if_pos hc]
      exact (ih seen).cons a
    · rw [uniqueFirstAux, if_neg hc]
      exact (ih (a :: seen)).cons₂ a

theorem caption_loader_mem (raw : List (List Nat)) (db : EmbDB) (t : List Nat) :
    t ∈ caption_loader raw db ↔
      ((∃ r ∈ raw, clean r = t) ∧ db.is_available t = false) := by
  unfold caption_loader uniqueFirst
  rw [List.mem_filter, uniqueFirstAux_mem]
  simp [List.mem_map, Bool.not_eq_true']

theorem is_available_append_commit (db : EmbDB) (a t : List Nat) (v : Nat)
    (hst : db.staged = []) :
    ((db.append a v).commit).is_available t = (db.is_available t || t == a) := by
  unfold EmbDB.is_available EmbDB.append EmbDB.commit
  rw [hst, List.nil_append, List.map_append, contains_append]
  by_cases hm : t ∈ List.map Prod.fst db.committed <;> by_cases ha : t = a <;>
    simp [hm, ha]

theorem is_available_append_commit_self (db : EmbDB) (t : List Nat) (v : Nat) :
    ((db.append t v).commit).is_available t = true := by
  unfold EmbDB.is_available EmbDB.append EmbDB.commit
  simp [List.map_append, contains_append, List.contains_cons]

theorem count_eq_one_of_nodup_mem (l : List (List Nat)) (a : List Nat)
    (d : l.Nodup) (h : a ∈ l) : l.count a = 1 := by
  induction l with
  | nil => cases h
  | cons b t ih =>
    rw [List.count_cons]
    rcases List.mem_cons.mp h with rfl | hat
    · have hnotin := (List.nodup_cons.mp d).1
      have hz : t.count a = 0 := by
        rw [List.count_eq_zero]
        exact hnotin
      rw [hz]
      simp
    · have hne : a ≠ b := by
        rintro rfl
        exact (List.nodup_cons.mp d).1 hat
      have hb2 : (b == a) = false := by
        cases hx : (b == a)
        · rfl
        · exact absurd (eq_of_beq hx).symm hne
      rw [ih (List.nodup_cons.mp d).2 hat, hb2]
      simp

/-- C3.  The pending set computed at startup holds exactly the
normalized captions that are not yet available in the cache; and after
one pending caption is appended and committed, recomputing the pending
set over the same caption source and the updated cache yields exactly
the remaining pending captions, never re-including the committed
one. -/
theorem pending_set_resumability :
    (∀ (raw : List (List Nat)) (db : EmbDB) (t : List Nat),
      t ∈ caption_loader raw db ↔
        ((∃ r ∈ raw, clean r = t) ∧ db.is_available t = false)) ∧
    (∀ (raw : List (List Nat)) (db : EmbDB) (a : List Nat)
      (rest : List (List Nat)) (v : Nat),
      caption_loader raw db = a :: rest → db.staged = [] →
      caption_loader raw ((db.append a v).commit) = rest) := by
  refine ⟨caption_loader_mem, ?_⟩
  intro raw db a rest v hpend hst
  have hnodup : (caption_loader raw db).Nodup := by
    unfold caption_loader uniqueFirst
    exact (uniqueFirstAux_nodup (raw.map clean) []).filter _
  rw [hpend] at hnodup
  have hanotin : ¬ a ∈ rest := (List.nodup_cons.mp hnodup).1
  have hcl2 : caption_loader raw ((db.append a v).commit) =
      (caption_loader raw db).filter (fun t => !(t == a)) := by
    unfold caption_loader uniqueFirst
    rw [List.filter_filter]
    refine List.filter_congr ?_
    intro t _
    rw [is_available_append_commit db a t v hst]
    cases db.is_available t <;> cases htb : (t == a) <;> simp
  rw [hcl2, hpend]
  have hhead : (fun t => !(t == a)) a = false := by simp
  rw [List.filter_cons_of_neg (by simpa using hhead)]
  refine List.filter_eq_self.mpr ?_
  intro t ht
  have : t ≠ a := fun h => hanotin (h ▸ ht)
  simp [this]

/-- Witness for C3 at a concrete state: after committing the first of
two pending captions, a fresh pending-set computation returns exactly
the second one. -/
theorem pending_set_resumability_witness :
    caption_loader [strToCodes "A sharp knife in a bag.", strToCodes "Dog."]
      ((dbEmpty.append (strToCodes "sharp knife bag") 7).commit) =
      [strToCodes "dog"] :=
  pending_set_resumability.2
    [strToCodes "A sharp knife in a bag.", strToCodes "Dog."] dbEmpty
    (strToCodes "sharp knife bag") [strToCodes "dog"] 7 (by decide) rfl

/-- Counterexample to C7 as stated: two raw captions normalize to the
same text, but because that text is already cached the pending set
holds zero entries for it, not exactly one. -/
theorem pending_dedup_cached_counterexample :
    clean (strToCodes "A sharp knife in a bag.") =
      clean (strToCodes "sharp knife bag.") ∧
    ¬ ((caption_loader [strToCodes "A sharp knife in a bag.",
          strToCodes "sharp knife bag."] dbSharp).count
        (clean (strToCodes "A sharp knife in a bag.")) = 1) := by decide

/-- C7 amended.  The pending set never holds two entries for one
normalized text and is a subsequence of the normalized caption source,
so its order is stable with respect to the original order; and when a
normalized text is not yet cached, the pending set holds exactly one
entry for it. -/
theorem pending_set_dedup_stable :
    (∀ (raw : List (List Nat)) (db : EmbDB),
      (caption_loader raw db).Nodup ∧
      List.Sublist (caption_loader raw db) (raw.map clean)) ∧
    (∀ (raw : List (List Nat)) (db : EmbDB) (r t : List Nat),
      r ∈ raw → clean r = t → db.is_available t = false →
      (caption_loader raw db).count t = 1) := by
  constructor
  · intro raw db
    constructor
    · unfold caption_loader uniqueFirst
      exact (uniqueFirstAux_nodup (raw.map clean) []).filter _
    · unfold caption_loader uniqueFirst
      exact (List.filter_sublist _).trans (uniqueFirstAux_sublist (raw.map clean) [])
  · intro raw db r t hr hc hav
    have hmem : t ∈ caption_loader raw db :=
      (caption_loader_mem raw db t).mpr ⟨⟨r, hr, hc⟩, hav⟩
    have hnodup : (caption_loader raw db).Nodup := by
      unfold caption_loader uniqueFirst
      exact (uniqueFirstAux_nodup (raw.map clean) []).filter _
    exact count_eq_one_of_nodup_mem _ _ hnodup hmem

/-- Witness for the amended C7 at a concrete state. -/
theorem pending_set_dedup_stable_witness :
    (caption_loader [strToCodes "A sharp knife in a bag."] dbEmpty).count
      (strToCodes "sharp knife bag") = 1 :=
  pending_set_dedup_stable.2 [strToCodes "A sharp knife in a bag."] dbEmpty
    (strToCodes "A sharp knife in a bag.") (strToCodes "sharp knife bag")
    (by decide) (by decide) rfl

/-- C10.  The normalizer can return the empty string, for example on a
caption consisting of one period; such an empty normalized caption is
not excluded from the pending set, and when processed it is embedded
and cached under the empty-string key like any other caption. -/
theorem empty_caption_processed
    (db db2 : EmbDB) (raw : List (List Nat)) (ring : CredRing)
    (cur : Credential) (embed : List Nat → Credential → EmbedResult) (v : Nat)
    (h1 : db.is_available [] = false) (h2 : strToCodes "." ∈ raw)
    (h3 : ring.is_limit_exhausted cur.label = false)
    (h4 : embed [] cur = EmbedResult.ok v) :
    clean (strToCodes ".") = [] ∧
    [] ∈ caption_loader raw db ∧
    attempt embed db2 ring cur [] =
      AttemptResult.processed ((db2.append [] v).commit) ring cur ∧
    ((db2.append [] v).commit).is_available [] = true := by
  refine ⟨by decide, ?_, attempt_ok embed db2 ring cur [] v h3 h4,
    is_available_append_commit_self db2 [] v⟩
  exact (caption_loader_mem raw db []).mpr ⟨⟨strToCodes ".", h2, by decide⟩, h1⟩

set_option maxRecDepth 4000 in
/-- C6.  The two worked examples of the specification: the normalizer
returns exactly the documented outputs on both sentences. -/
theorem clean_worked_examples :
    clean (strToCodes "A sharp knife in a bag.") = strToCodes "sharp knife bag" ∧
    clean (strToCodes "Security discovered a concealed knife in the passenger" ++
        apos :: strToCodes "s bag.") =
      strToCodes "security discovered concealed knife passenger" ++
        apos :: strToCodes "s bag" := by decide

/-- Counterexample to C1 as stated: the input consisting of the letter
a followed by a period normalizes to the single letter a, which is a
stop word, so a second application of clean removes it and yields the
empty string. -/
theorem clean_not_idempotent_counterexample :
    ¬ (clean (clean (strToCodes "a.")) = clean (strToCodes "a.")) := by decide

/-- Counterexample to C5 as stated: with a tab between two words the
source splits on single space characters only, so the stop word
survives inside the unsplit token, while the pipeline that tokenizes
on whitespace drops it. -/
theorem clean_not_whitespace_tokenized_counterexample :
    ¬ (clean (strToCodes "x\tthe") = cleanSpecWords (strToCodes "x\tthe")) := by
  decide

/-- C5 amended.  For every input, clean equals the composition of the
specified reference steps in order, with the tokenization step reading
split on single space characters keeping empty pieces instead of
tokenize on whitespace. -/
theorem clean_eq_space_split_pipeline :
    ∀ l : List Nat, clean l = cleanSpaceSplit l := fun _ => rfl

/-- Witness for C10 at a concrete state. -/
theorem empty_caption_processed_witness :
    clean (strToCodes ".") = [] ∧
    [] ∈ caption_loader [strToCodes "."] dbEmpty ∧
    attempt embedOk dbEmpty ringABC credA [] =
      AttemptResult.processed ((dbEmpty.append [] 7).commit) ringABC credA ∧
    ((dbEmpty.append [] 7).commit).is_available [] = true :=
  empty_caption_processed dbEmpty dbEmpty [strToCodes "."] ringABC credA
    embedOk 7 rfl (by decide) (by decide) rfl

theorem lowerChar_id (c : Nat) (h : okChar c = true) : lowerChar c = c := by
  unfold okChar apos at h
  unfold lowerChar
  simp only [Bool.or_eq_true, Bool.and_eq_true, decide_eq_true_eq,
    beq_iff_eq] at h
  rw [if_neg]
  rintro ⟨h1, h2⟩
  rcases h with h | h | h | h | h <;> omega

theorem subPunct_id (c : Nat) (h : okChar c = true) : subPunct c = c := by
  have hc : (isWordChar c || isPySpace c || c == apos) = true := by
    unfold okChar apos at h
    unfold isWordChar isPySpace apos
    simp only [Bool.or_eq_true, Bool.and_eq_true, decide_eq_true_eq,
      beq_iff_eq] at h ⊢
    rcases h with h | h | h | h | h <;> omega
  unfold subPunct
  rw [if_pos hc]

theorem okChar_space (c : Nat) (h : okChar c = true)
    (hs : isPySpace c = true) : c = 32 := by
  unfold okChar apos at h
  unfold isPySpace at hs
  simp only [Bool.or_eq_true, Bool.and_eq_true, decide_eq_true_eq,
    beq_iff_eq] at h hs
  rcases h with h | h | h | h | h <;> rcases hs with hs | hs | hs | hs | hs | hs <;>
    omega

theorem lowerChar_not_upper (c : Nat) :
    ¬ (65 ≤ lowerChar c ∧ lowerChar c ≤ 90) := by
  unfold lowerChar
  split
  · next h => omega
  · next h => omega

theorem subPunct_pre (c : Nat) :
    (isWordChar (subPunct c) || isPySpace (subPunct c) ||
      subPunct c == apos) = true := by
  unfold subPunct
  by_cases hc : (isWordChar c || isPySpace c || c == apos) = true
  · rw [if_pos hc]
    exact hc
  · rw [if_neg hc]
    decide

theorem subPunct_not_upper (c : Nat) (h : ¬ (65 ≤ c ∧ c ≤ 90)) :
    ¬ (65 ≤ subPunct c ∧ subPunct c ≤ 90) := by
  unfold subPunct
  split
  · exact h
  · omega

theorem okChar_of_preOk (c : Nat)
    (h1 : (isWordChar c || isPySpace c || c == apos) = true)
    (h2 : isPySpace c = false)
    (h3 : ¬ (65 ≤ c ∧ c ≤ 90)) : okChar c = true := by
  unfold isWordChar isPySpace apos at h1
  unfold isPySpace at h2
  unfold okChar apos
  simp only [Bool.or_eq_true, Bool.and_eq_true, decide_eq_true_eq,
    beq_iff_eq] at h1 ⊢
  simp only [Bool.or_eq_false_iff] at h2
  rcases h2 with ⟨⟨⟨⟨⟨g1, g2⟩, g3⟩, g4⟩, g5⟩, g6⟩
  have n1 : c ≠ 32 := by intro hx; rw [hx] at g1; simp at g1
  have n2 : c ≠ 9 := by intro hx; rw [hx] at g2; simp at g2
  have n3 : c ≠ 10 := by intro hx; rw [hx] at g3; simp at g3
  have n4 : c ≠ 11 := by intro hx; rw [hx] at g4; simp at g4
  have n5 : c ≠ 12 := by intro hx; rw [hx] at g5; simp at g5
  have n6 : c ≠ 13 := by intro hx; rw [hx] at g6; simp at g6
  rcases h1 with (h | h | h | h) | (h | h | h | h | h | h) | h <;> omega

theorem map_id_of_all (l : List Nat) (f : Nat → Nat) (h : ∀ c ∈ l, f c = c) :
    l.map f = l := by
  induction l with
  | nil => rfl
  | cons a t ih =>
    rw [List.map_cons, h a (List.mem_cons_self a t),
      ih (fun c hc => h c (List.mem_cons_of_mem a hc))]

theorem splitSp_ne_nil : ∀ l : List Nat, splitSp l ≠ [] := by
  intro l
  cases l with
  | nil => simp [splitSp]
  | cons c rest =>
    rw [splitSp]
    cases hs : splitSp rest with
    | nil => simp
    | cons t ts =>
      change ¬(if (c == 32) = true then [] :: t :: ts else (c :: t) :: ts) = []
      split <;> simp

theorem joinSp_split : ∀ l : List Nat, joinSp (splitSp l) = l := by
  intro l
  induction l with
  | nil => rfl
  | cons c rest ih =>
    rw [splitSp]
    cases hs : splitSp rest with
    | nil => exact absurd hs (splitSp_ne_nil rest)
    | cons t ts =>
      rw [hs] at ih
      change joinSp (if (c == 32) = true then [] :: t :: ts
        else (c :: t) :: ts) = c :: rest
      by_cases hc : (c == 32) = true
      · rw [if_pos hc]
        have hc32 : c = 32 := eq_of_beq hc
        subst hc32
        rw [joinSp, List.nil_append, ih]
        all_goals simp
      · rw [if_neg hc]
        cases ts with
        | nil =>
          rw [joinSp]
          rw [joinSp] at ih
          rw [ih]
        | cons t2 ts2 =>
          rw [joinSp]
          rw [joinSp] at ih
          rw [List.cons_append, ih]
          all_goals simp

theorem noAdjSp_tail (c : Nat) (l : List Nat) (h : noAdjSp (c :: l) = true) :
    noAdjSp l = true := by
  cases l with
  | nil => rfl
  | cons d r =>
    rw [noAdjSp] at h
    simp only [Bool.and_eq_true] at h
    exact h.2

theorem collapse_id : ∀ (l : List Nat) (b : Bool),
    noAdjSp l = true → (∀ c ∈ l, isPySpace c = true → c = 32) →
    (b = true → headNotSp l = true) → collapseAux b l = l := by
  intro l
  induction l with
  | nil => intro b _ _ _; rfl
  | cons c rest ih =>
    intro b hadj hall hhead
    by_cases hsp : isPySpace c = true
    · have hc32 : c = 32 := hall c (List.mem_cons_self c rest) hsp
      cases b with
      | true =>
        have hht := hhead rfl
        rw [headNotSp, hsp] at hht
        simp at hht
      | false =>
        rw [collapseAux, if_pos hsp, if_neg Bool.false_ne_true]
        have hheadrest : headNotSp rest = true := by
          cases rest with
          | nil => rfl
          | cons d r =>
            rw [noAdjSp] at hadj
            simp only [Bool.and_eq_true] at hadj
            have h1 := hadj.1
            rw [hsp] at h1
            simp only [Bool.true_and, Bool.not_eq_true'] at h1
            rw [headNotSp, h1]
            rfl
        rw [ih true (noAdjSp_tail c rest hadj)
          (fun x hx hs => hall x (List.mem_cons_of_mem c hx) hs)
          (fun _ => hheadrest), hc32]
    · rw [Bool.not_eq_true] at hsp
      rw [collapseAux, if_neg (by simp [hsp])]
      rw [ih false (noAdjSp_tail c rest hadj)
        (fun x hx hs => hall x (List.mem_cons_of_mem c hx) hs)
        (fun habs => absurd habs Bool.false_ne_true)]

theorem collapse_noAdj : ∀ (l : List Nat) (b : Bool),
    noAdjSp (collapseAux b l) = true ∧
    (b = true → headNotSp (collapseAux b l) = true) := by
  intro l
  induction l with
  | nil => intro b; exact ⟨rfl, fun _ => rfl⟩
  | cons c rest ih =>
    intro b
    by_cases hsp : isPySpace c = true
    · cases b with
      | true =>
        rw [collapseAux, if_pos hsp, if_pos rfl]
        exact ih true
      | false =>
        rw [collapseAux, if_pos hsp, if_neg Bool.false_ne_true]
        constructor
        · cases hX : collapseAux true rest with
          | nil => rfl
          | cons d r =>
            rw [noAdjSp, Bool.and_eq_true]
            refine ⟨?_, ?_⟩
            · have hh := (ih true).2 rfl
              rw [hX, headNotSp] at hh
              simp only [Bool.not_eq_true'] at hh
              rw [hh, Bool.and_false]
              rfl
            · have h1 := (ih true).1
              rw [hX] at h1
              exact h1
        · exact fun habs => absurd habs Bool.false_ne_true
    · rw [Bool.not_eq_true] at hsp
      rw [collapseAux, if_neg (by simp [hsp])]
      constructor
      · cases hX : collapseAux false rest with
        | nil => rfl
        | cons d r =>
          rw [noAdjSp, Bool.and_eq_true]
          refine ⟨?_, ?_⟩
          · rw [hsp, Bool.false_and]
            rfl
          · have h1 := (ih false).1
            rw [hX] at h1
            exact h1
      · intro _
        rw [headNotSp, hsp]
        rfl

theorem mem_dropTrailing : ∀ (l : List Nat) (x : Nat),
    x ∈ dropTrailing l → x ∈ l := by
  intro l
  induction l with
  | nil => intro x h; exact absurd h (List.not_mem_nil x)
  | cons c rest ih =>
    intro x h
    rw [dropTrailing] at h
    split at h
    · exact absurd h (List.not_mem_nil x)
    · rcases List.mem_cons.mp h with rfl | h2
      · exact List.mem_cons_self x rest
      · exact List.mem_cons_of_mem c (ih x h2)

theorem mem_dropLeading (l : List Nat) (x : Nat) (h : x ∈ dropLeading l) :
    x ∈ l := by
  unfold dropLeading at h
  exact (List.dropWhile_sublist isPySpace).subset h

theorem mem_pyStrip (l : List Nat) (x : Nat) (h : x ∈ pyStrip l) : x ∈ l := by
  unfold pyStrip at h
  exact mem_dropLeading l x (mem_dropTrailing (dropLeading l) x h)

theorem mem_splitSp : ∀ (l t : List Nat) (x : Nat),
    t ∈ splitSp l → x ∈ t → x ∈ l := by
  intro l
  induction l with
  | nil =>
    intro t x ht hx
    simp [splitSp] at ht
    subst ht
    exact absurd hx (List.not_mem_nil x)
  | cons c rest ih =>
    intro t x ht hx
    cases hs : splitSp rest with
    | nil => exact absurd hs (splitSp_ne_nil rest)
    | cons t0 ts =>
      have heq : splitSp (c :: rest) =
          if (c == 32) = true then [] :: t0 :: ts else (c :: t0) :: ts := by
        rw [splitSp, hs]
      rw [heq] at ht
      by_cases hc : (c == 32) = true
      · rw [if_pos hc] at ht
        rcases List.mem_cons.mp ht with rfl | ht2
        · exact absurd hx (List.not_mem_nil x)
        · exact List.mem_cons_of_mem c (ih t x (hs.symm ▸ ht2) hx)
      · rw [if_neg hc] at ht
        rcases List.mem_cons.mp ht with rfl | ht2
        · rcases List.mem_cons.mp hx with rfl | hx2
          · exact List.mem_cons_self x rest
          · exact List.mem_cons_of_mem c
              (ih t0 x (hs.symm ▸ List.mem_cons_self t0 ts) hx2)
        · exact List.mem_cons_of_mem c
            (ih t x (hs.symm ▸ List.mem_cons_of_mem t0 ht2) hx)

theorem mem_joinSp : ∀ (ts : List (List Nat)) (x : Nat),
    x ∈ joinSp ts → (∃ t ∈ ts, x ∈ t) ∨ x = 32 := by
  intro ts
  induction ts with
  | nil => intro x h; exact absurd h (List.not_mem_nil x)
  | cons t ts2 ih =>
    intro x h
    cases ts2 with
    | nil =>
      rw [joinSp] at h
      exact Or.inl ⟨t, List.mem_cons_self t [], h⟩
    | cons t2 ts3 =>
      have heq : joinSp (t :: t2 :: ts3) = t ++ 32 :: joinSp (t2 :: ts3) := by
        rw [joinSp]
        all_goals simp
      rw [heq] at h
      rcases List.mem_append.mp h with h1 | h2
      · exact Or.inl ⟨t, List.mem_cons_self t _, h1⟩
      · rcases List.mem_cons.mp h2 with rfl | h3
        · exact Or.inr rfl
        · rcases ih x h3 with ⟨t4, ht4, hx4⟩ | h32
          · exact Or.inl ⟨t4, List.mem_cons_of_mem t ht4, hx4⟩
          · exact Or.inr h32

theorem mem_collapseAux : ∀ (l : List Nat) (b : Bool) (x : Nat),
    x ∈ collapseAux b l → x = 32 ∨ (x ∈ l ∧ isPySpace x = false) := by
  intro l
  induction l with
  | nil => intro b x h; exact absurd h (List.not_mem_nil x)
  | cons c rest ih =>
    intro b x h
    by_cases hsp : isPySpace c = true
    · cases b with
      | true =>
        rw [collapseAux, if_pos hsp, if_pos rfl] at h
        rcases ih true x h with h32 | ⟨hm, hns⟩
        · exact Or.inl h32
        · exact Or.inr ⟨List.mem_cons_of_mem c hm, hns⟩
      | false =>
        rw [collapseAux, if_pos hsp, if_neg Bool.false_ne_true] at h
        rcases List.mem_cons.mp h with rfl | h2
        · exact Or.inl rfl
        · rcases ih true x h2 with h32 | ⟨hm, hns⟩
          · exact Or.inl h32
          · exact Or.inr ⟨List.mem_cons_of_mem c hm, hns⟩
    · rw [Bool.not_eq_true] at hsp
      rw [collapseAux, if_neg (by simp [hsp])] at h
      rcases List.mem_cons.mp h with rfl | h2
      · exact Or.inr ⟨List.mem_cons_self x rest, hsp⟩
      · rcases ih false x h2 with h32 | ⟨hm, hns⟩
        · exact Or.inl h32
        · exact Or.inr ⟨List.mem_cons_of_mem c hm, hns⟩

theorem headNotSp_dropLeading : ∀ l : List Nat,
    headNotSp (dropLeading l) = true := by
  intro l
  induction l with
  | nil => rfl
  | cons c rest ih =>
    unfold dropLeading at ih ⊢
    rw [List.dropWhile_cons]
    by_cases hsp : isPySpace c = true
    · rw [if_pos hsp]
      exact ih
    · rw [Bool.not_eq_true] at hsp
      rw [if_neg (by simp [hsp])]
      rw [headNotSp, hsp]
      rfl

theorem headNotSp_dropTrailing (l : List Nat) (h : headNotSp l = true) :
    headNotSp (dropTrailing l) = true := by
  cases l with
  | nil => rfl
  | cons c rest =>
    rw [dropTrailing]
    split
    · rfl
    · rw [headNotSp] at h ⊢
      exact h

theorem dropLeading_of_headNot (l : List Nat) (h : headNotSp l = true) :
    dropLeading l = l := by
  cases l with
  | nil => rfl
  | cons c rest =>
    rw [headNotSp] at h
    simp only [Bool.not_eq_true'] at h
    unfold dropLeading
    rw [List.dropWhile_cons, if_neg (by simp [h])]

theorem dropTrailing_idem : ∀ l : List Nat,
    dropTrailing (dropTrailing l) = dropTrailing l := by
  intro l
  induction l with
  | nil => rfl
  | cons c rest ih =>
    rw [dropTrailing]
    by_cases hcond : ((dropTrailing rest).isEmpty && isPySpace c) = true
    · rw [if_pos hcond]
      rfl
    · rw [if_neg hcond]
      rw [dropTrailing, ih, if_neg hcond]

theorem pyStrip_idem (l : List Nat) : pyStrip (pyStrip l) = pyStrip l := by
  unfold pyStrip
  rw [dropLeading_of_headNot _ (headNotSp_dropTrailing _ (headNotSp_dropLeading l))]
  exact dropTrailing_idem _

theorem noAdjSp_dropLeading (l : List Nat) (h : noAdjSp l = true) :
    noAdjSp (dropLeading l) = true := by
  induction l with
  | nil => exact h
  | cons c rest ih =>
    unfold dropLeading at ih ⊢
    rw [List.dropWhile_cons]
    by_cases hsp : isPySpace c = true
    · rw [if_pos hsp]
      exact ih (noAdjSp_tail c rest h)
    · rw [Bool.not_eq_true] at hsp
      rw [if_neg (by simp [hsp])]
      exact h

theorem noAdjSp_dropTrailing : ∀ l : List Nat, noAdjSp l = true →
    noAdjSp (dropTrailing l) = true := by
  intro l
  induction l with
  | nil => intro h; exact h
  | cons c rest ih =>
    intro h
    rw [dropTrailing]
    split
    · rfl
    · cases hdt : dropTrailing rest with
      | nil => rfl
      | cons d r =>
        have htail : noAdjSp (d :: r) = true := by
          have hx := ih (noAdjSp_tail c rest h)
          rw [hdt] at hx
          exact hx
        have hpair : (!(isPySpace c && isPySpace d)) = true := by
          cases rest with
          | nil =>
            rw [dropTrailing] at hdt
            exact absurd hdt (by simp)
          | cons e rest2 =>
            have hde : d = e := by
              rw [dropTrailing] at hdt
              split at hdt
              · exact absurd hdt (by simp)
              · injection hdt with h1 h2
                exact h1.symm
            subst hde
            rw [noAdjSp] at h
            simp only [Bool.and_eq_true] at h
            exact h.1
        rw [noAdjSp, Bool.and_eq_true]
        exact ⟨hpair, htail⟩

theorem noAdjSp_pyStrip (l : List Nat) (h : noAdjSp l = true) :
    noAdjSp (pyStrip l) = true := by
  unfold pyStrip
  exact noAdjSp_dropTrailing _ (noAdjSp_dropLeading l h)

theorem clean_eq_expanded (l : List Nat) : clean l =
    pyStrip (collapseWS ((joinSp ((splitSp ((pyStrip l).map lowerChar)).filter
      (fun t => !(STOP_WORDS.contains t)))).map subPunct)) := rfl

theorem clean_pyStrip (l : List Nat) : pyStrip (clean l) = clean l := by
  rw [clean_eq_expanded]
  exact pyStrip_idem _

theorem clean_noAdj (l : List Nat) : noAdjSp (clean l) = true := by
  rw [clean_eq_expanded]
  unfold collapseWS
  exact noAdjSp_pyStrip _ ((collapse_noAdj _ false).1)

theorem clean_all_ok (l : List Nat) : ∀ x ∈ clean l, okChar x = true := by
  intro x hx
  rw [clean_eq_expanded] at hx
  have hx1 := mem_pyStrip _ x hx
  unfold collapseWS at hx1
  rcases mem_collapseAux _ false x hx1 with rfl | ⟨hx2, hns⟩
  · decide
  · rcases List.mem_map.mp hx2 with ⟨y, hy, rfl⟩
    have hyup : ¬ (65 ≤ y ∧ y ≤ 90) := by
      rcases mem_joinSp _ y hy with ⟨t, ht, hyt⟩ | rfl
      · have ht2 : t ∈ splitSp ((pyStrip l).map lowerChar) :=
          List.mem_of_mem_filter ht
        have hy1 : y ∈ (pyStrip l).map lowerChar := mem_splitSp _ t y ht2 hyt
        rcases List.mem_map.mp hy1 with ⟨z, hz, rfl⟩
        exact lowerChar_not_upper z
      · omega
    exact okChar_of_preOk (subPunct y) (subPunct_pre y) hns
      (subPunct_not_upper y hyup)

theorem clean_canonical_id (w : List Nat)
    (hok : ∀ x ∈ w, okChar x = true)
    (hadj : noAdjSp w = true)
    (hstrip : pyStrip w = w)
    (hstop : ∀ t ∈ splitSp w, STOP_WORDS.contains t = false) :
    clean w = w := by
  rw [clean_eq_expanded, hstrip]
  rw [map_id_of_all w lowerChar (fun c hc => lowerChar_id c (hok c hc))]
  rw [List.filter_eq_self.mpr (fun t ht => by
    show (!(STOP_WORDS.contains t)) = true
    rw [hstop t ht]
    rfl)]
  rw [joinSp_split w]
  rw [map_id_of_all w subPunct (fun c hc => subPunct_id c (hok c hc))]
  unfold collapseWS
  rw [collapse_id w false hadj (fun c hc hs => okChar_space c (hok c hc) hs)
    (fun habs => absurd habs Bool.false_ne_true)]
  exact hstrip

/-- C1 amended.  The normalizer is idempotent on every input whose
normalized form contains no stop-word token: if no space-separated
token of clean l belongs to STOP_WORDS then clean (clean l) equals
clean l.  Unconditional idempotence fails, because stripping
punctuation can create a fresh stop-word token, as the counterexample
shows. -/
theorem clean_idempotent_of_no_stop_tokens (l : List Nat)
    (h : ∀ t ∈ splitSp (clean l), STOP_WORDS.contains t = false) :
    clean (clean l) = clean l :=
  clean_canonical_id (clean l) (clean_all_ok l) (clean_noAdj l)
    (clean_pyStrip l) h

/-- Witness for the amended C1 at a concrete input whose normalized
form has no stop-word token. -/
theorem clean_idempotent_of_no_stop_tokens_witness :
    clean (clean (strToCodes "A sharp knife in a bag.")) =
      clean (strToCodes "A sharp knife in a bag.") :=
  clean_idempotent_of_no_stop_tokens (strToCodes "A sharp knife in a bag.")
    (by decide)

end StackGAN
